import Mathlib

/-!
Verification of the PyHum map module.

This file gives a shallow embedding in Lean 4 of the coordinate-reconstruction
and gridding pipeline of `_pyhum_map.py` (functions `map`, `make_map`,
`calc_beam_pos`, `bearingBetweenPoints`) together with the helpers it uses from
`pyhum_utils.py` (`runningMeanFast`, `nan_helper`), and proves or refutes the
specification's claims about it.

Conventions of the embedding:
* exact real numbers (`ℝ`) stand for floats where the code does transcendental
  arithmetic (`tan`, `sin`, `cos`, `sqrt`, `atan2`);
* exact rationals (`ℚ`) stand for floats where the code does field arithmetic
  only, so that theorems about concrete inputs can be settled by `decide`;
* the float values NaN and Inf, which the pipeline uses as control flow, are
  modelled by an explicit value type `RVal` (`nan`, `inf`, `fin q`);
* numpy's `atan2` is `Complex.arg ⟨x, y⟩`, Python's float `%` is
  `a - m * ⌊a / m⌋`.

The file is organized as definitions first (the embedding), then theorems.
-/

namespace PyHum

/-! ## Definitions -/

/-! ### Range corrector — `map`, lines 305-309 of `_pyhum_map.py`

`tvg = ((8.5*10**-5)+(3/76923)+((8.5*10**-5)/4))*c`
`dist_tvg = ((np.tan(np.radians(25)))*dep_m)-(tvg)`

The module has `from __future__ import division`, so `3/76923` is true
division. -/

/-- `np.radians(x)`: degrees to radians. -/
noncomputable def radians (x : ℝ) : ℝ := x * Real.pi / 180

/-- Time-varying gain, `map` line 306. -/
noncomputable def tvg (c : ℝ) : ℝ :=
  ((8.5 * 10 ^ (-5 : ℤ)) + (3 / 76923) + ((8.5 * 10 ^ (-5 : ℤ)) / 4)) * c

/-- Depth-corrected ground range, `map` line 309. -/
noncomputable def dist_tvg (dep_m c : ℝ) : ℝ :=
  (Real.tan (radians 25)) * dep_m - tvg c

/-- The spec's formula for the time-varying gain, stated with the spec's own
constants (`(8.5e-5) + (3/76923) + (8.5e-5/4)`), to be compared with the
source's `tvg`. -/
noncomputable def spec_tvg (c : ℝ) : ℝ :=
  ((8.5e-5) + (3 / 76923) + (8.5e-5 / 4)) * c

/-- The spec's formula for the ground range: `tan(25°)·depth − tvg`. -/
noncomputable def spec_ground_range (dep c : ℝ) : ℝ :=
  Real.tan (radians 25) * dep - spec_tvg c

/-! ### Bearing estimator — `bearingBetweenPoints`, lines 327-336 -/

/-- `np.deg2rad`. -/
noncomputable def deg2rad (x : ℝ) : ℝ := x * Real.pi / 180

/-- `np.rad2deg`. -/
noncomputable def rad2deg (x : ℝ) : ℝ := x * 180 / Real.pi

/-- `np.arctan2 y x`, as the argument of the complex number `x + i·y`
(range `(-π, π]`, `arctan2 0 0 = 0`, matching numpy). -/
noncomputable def arctan2 (y x : ℝ) : ℝ := Complex.arg ⟨x, y⟩

/-- Python's float modulo `a % m` (sign follows the divisor `m`). -/
noncomputable def pymod (a m : ℝ) : ℝ := a - m * ⌊a / m⌋

/-- `bearingBetweenPoints(pos1_lat, pos2_lat, pos1_lon, pos2_lon)`,
lines 327-336 of `_pyhum_map.py`. -/
noncomputable def bearingBetweenPoints (pos1_lat pos2_lat pos1_lon pos2_lon : ℝ) : ℝ :=
  pymod (90 - rad2deg (arctan2
      (Real.cos (deg2rad pos1_lat) * Real.sin (deg2rad pos2_lat) -
        Real.sin (deg2rad pos1_lat) * Real.cos (deg2rad pos2_lat) *
          Real.cos (deg2rad pos2_lon - deg2rad pos1_lon))
      (Real.sin (deg2rad pos2_lon - deg2rad pos1_lon) * Real.cos (deg2rad pos2_lat)))
    + 360) 360

/-- The spec's bearing formula, on latitudes/longitudes already in radians:
`atan2(cos(lat1)·sin(lat2) − sin(lat1)·cos(lat2)·cos(Δlon), sin(Δlon)·cos(lat2))`
converted to degrees and normalized as `(90 − deg + 360) mod 360`. -/
noncomputable def spec_bearing (lat1 lat2 lon1 lon2 : ℝ) : ℝ :=
  pymod (90 - rad2deg (arctan2
      (Real.cos lat1 * Real.sin lat2 - Real.sin lat1 * Real.cos lat2 * Real.cos (lon2 - lon1))
      (Real.sin (lon2 - lon1) * Real.cos lat2)) + 360) 360

/-! ### Beam geometry reconstructor — `make_map` lines 351-368, `calc_beam_pos` lines 320-324

Per ping `k`, with `extent = shape(merge)[0]/2`:
`yvec = np.linspace(pix_m, extent*pix_m, extent)`
`x = concatenate((tile(e[k],extent), tile(e[k],extent)))`
`rangedist = sqrt(yvec**2 - d[k]**2)`
`y = concatenate((n[k]+rangedist, n[k]-rangedist))`
`xx = e[k] - ((x-e[k])*cos(t[k])) - ((y-n[k])*sin(t[k]))`
`yy = n[k] - ((x-e[k])*sin(t[k])) + ((y-n[k])*cos(t[k]))`
`xx, yy = calc_beam_pos(d[k], t[k], xx, yy)` -/

/-- `np.linspace a b num` evaluated at index `j`: for `num ≥ 2` the value is
`a + j·(b−a)/(num−1)`; `np.linspace` with `num = 1` gives `[a]`. -/
noncomputable def linspace (a b : ℝ) (num j : ℕ) : ℝ :=
  if num ≤ 1 then a else a + j * ((b - a) / ((num : ℝ) - 1))

/-- The across-track range vector `yvec = np.linspace(pix_m, extent*pix_m, extent)`
(`make_map` line 353), evaluated at index `j`. -/
noncomputable def yvec (pix_m : ℝ) (extent j : ℕ) : ℝ :=
  linspace pix_m ((extent : ℝ) * pix_m) extent j

/-- `rangedist = np.sqrt(np.power(yvec, 2.0) - np.power(d[k], 2.0))`
(`make_map` line 361), at index `j`. -/
noncomputable def rangedist (pix_m : ℝ) (extent : ℕ) (d : ℝ) (j : ℕ) : ℝ :=
  Real.sqrt ((yvec pix_m extent j) ^ 2 - d ^ 2)

/-- `calc_beam_pos(dist, bearing, x, y)` (`_pyhum_map.py` lines 320-324). -/
noncomputable def calc_beam_pos (dist bearing x y : ℝ) : ℝ × ℝ :=
  (x + dist * Real.sin bearing, y + dist * Real.cos bearing)

/-- The pre-rotation across-track x coordinate: `x = tile(e[k], 2*extent)`. -/
def xRaw (e : ℝ) (_i : ℕ) : ℝ := e

/-- The pre-rotation across-track y coordinate
`y = concatenate((n[k]+rangedist, n[k]-rangedist))`, at index `i < 2*extent`. -/
noncomputable def yRaw (n pix_m d : ℝ) (extent i : ℕ) : ℝ :=
  if i < extent then n + rangedist pix_m extent d i
  else n - rangedist pix_m extent d (i - extent)

/-- `xx = e[k] - ((x-e[k])*cos(t[k])) - ((y-n[k])*sin(t[k]))` (line 364). -/
noncomputable def rotX (e n t x y : ℝ) : ℝ :=
  e - ((x - e) * Real.cos t) - ((y - n) * Real.sin t)

/-- `yy = n[k] - ((x-e[k])*sin(t[k])) + ((y-n[k])*cos(t[k]))` (line 365). -/
noncomputable def rotY (e n t x y : ℝ) : ℝ :=
  n - ((x - e) * Real.sin t) + ((y - n) * Real.cos t)

/-- World X of sample `i` of ping `(e, n, t, d)`: the loop body of `make_map`
lines 359-366 followed by `calc_beam_pos`. -/
noncomputable def beamX (e n t d pix_m : ℝ) (extent i : ℕ) : ℝ :=
  (calc_beam_pos d t (rotX e n t (xRaw e i) (yRaw n pix_m d extent i))
    (rotY e n t (xRaw e i) (yRaw n pix_m d extent i))).1

/-- World Y of sample `i` of ping `(e, n, t, d)`. -/
noncomputable def beamY (e n t d pix_m : ℝ) (extent i : ℕ) : ℝ :=
  (calc_beam_pos d t (rotX e n t (xRaw e i) (yRaw n pix_m d extent i))
    (rotY e n t (xRaw e i) (yRaw n pix_m d extent i))).2

/-- The pre-rotation across-track sample vector as a list,
`y = concatenate((n[k]+rangedist, n[k]-rangedist))` (line 362). -/
noncomputable def yAcross (n pix_m d : ℝ) (extent : ℕ) : List ℝ :=
  ((List.range extent).map (fun j => n + rangedist pix_m extent d j)) ++
  ((List.range extent).map (fun j => n - rangedist pix_m extent d j))

/-- The yvec that claim C2 asserts: linearly spaced from `0` to `extent·pix_m`. -/
noncomputable def claimC2_yvec (pix_m : ℝ) (extent j : ℕ) : ℝ :=
  linspace 0 ((extent : ℝ) * pix_m) extent j

/-! ### Float value model: NaN, Inf, finite -/

/-- A float value as the pipeline observes it: NaN, (positive) infinity, or a
finite value. The sanitizer and the gridding mask only inspect values through
`np.isnan`, `np.isinf` and comparison with `0`, so this is a faithful model of
those observations. -/
inductive RVal : Type
  | nan : RVal
  | inf : RVal
  | fin : ℚ → RVal
deriving DecidableEq, Repr

/-- `np.isnan` on one value. -/
def RVal.isnan : RVal → Bool
  | .nan => true
  | _ => false

/-- `np.isinf` on one value. -/
def RVal.isinf : RVal → Bool
  | .inf => true
  | _ => false

/-! ### Point-cloud sanitizer — `make_map` lines 380-391

```
X = X[where(logical_not(isnan(Y)))]
merge = merge.flatten()[where(logical_not(isnan(Y)))]
Y = Y[where(logical_not(isnan(Y)))]
Y = Y[where(logical_not(isnan(X)))]
merge = merge.flatten()[where(logical_not(isnan(X)))]
X = X[where(logical_not(isnan(X)))]
X = X[where(logical_not(isnan(merge)))]
Y = Y[where(logical_not(isnan(merge)))]
merge = merge[where(logical_not(isnan(merge)))]
```
-/

/-- Boolean-mask indexing `xs[mask]`: keep the entries whose mask bit is set. -/
def filterByMask (mask : List Bool) (xs : List α) : List α :=
  ((mask.zip xs).filter (fun p => p.1)).map (fun p => p.2)

/-- The mask `logical_not(isnan(xs))`. -/
def notNanMask (xs : List RVal) : List Bool := xs.map (fun v => !v.isnan)

/-- The three sequential removal steps of `make_map` lines 380-391: filter all
three arrays by `¬isnan(Y)`, then by `¬isnan(X)` (of the already-filtered `X`),
then by `¬isnan(merge)`. -/
def sanitize (X Y M : List RVal) : List RVal × List RVal × List RVal :=
  let m1 := notNanMask Y
  let X1 := filterByMask m1 X
  let M1 := filterByMask m1 M
  let Y1 := filterByMask m1 Y
  let m2 := notNanMask X1
  let Y2 := filterByMask m2 Y1
  let M2 := filterByMask m2 M1
  let X2 := filterByMask m2 X1
  let m3 := notNanMask M2
  let X3 := filterByMask m3 X2
  let Y3 := filterByMask m3 Y2
  let M3 := filterByMask m3 M2
  (X3, Y3, M3)

/-- The rows `(X[i], Y[i], merge[i])` kept by a single 3-way valid mask:
keep index `i` iff none of the three is NaN. These are the triples written to
the `x_y_ss_raw` point-cloud file. -/
def sanitizedTriples (X Y M : List RVal) : List (RVal × RVal × RVal) :=
  (X.zip (Y.zip M)).filter
    (fun p => !p.1.isnan && !p.2.1.isnan && !p.2.2.isnan)

/-- The spec's description of the sanitizer: one single 3-way valid mask. -/
def sanitizeSpec (X Y M : List RVal) : List RVal × List RVal × List RVal :=
  ((sanitizedTriples X Y M).map (fun p => p.1),
   (sanitizedTriples X Y M).map (fun p => p.2.1),
   (sanitizedTriples X Y M).map (fun p => p.2.2))

/-- `merge[np.isnan(merge)] = 0` (`make_map` line 346), on the flattened
intensity matrix. -/
def replaceNanZero (m : List RVal) : List RVal :=
  m.map (fun v => if v.isnan then RVal.fin 0 else v)

/-! ### Gridding engine — `make_map` lines 400-419

```
dat = griddata(.., merge, (grid_x, grid_y), method='nearest')
dist, _ = tree.query(.., k=1)
dat[dist > np.floor(np.sqrt(1/res))-1] = np.nan
dat[dat==0] = np.nan
dat[np.isinf(dat)] = np.nan
datm = np.ma.masked_invalid(dat)
```
One grid cell is modelled by its centre coordinates; `nearest` returns the
squared Euclidean distance to, and the value of, the nearest sample (first one
on ties, a fixed resolution of scipy's unspecified tie-breaking). -/

/-- Squared Euclidean distance between two points. -/
def distSq (a b : ℚ × ℚ) : ℚ := (a.1 - b.1) ^ 2 + (a.2 - b.2) ^ 2

/-- One step of the nearest-sample scan: keep the strictly closer sample
(so the first sample wins ties). -/
def nearestStep (cell : ℚ × ℚ) (acc : Option (ℚ × RVal)) (s : ℚ × ℚ × RVal) :
    Option (ℚ × RVal) :=
  match acc with
  | none => some (distSq (s.1, s.2.1) cell, s.2.2)
  | some p => if distSq (s.1, s.2.1) cell < p.1 then some (distSq (s.1, s.2.1) cell, s.2.2)
              else some p

/-- Nearest-sample query for one grid cell: squared distance and sample value
of the nearest sample point (`griddata(method='nearest')` for the value,
`KDTree.query(k=1)` for the distance). -/
def nearest (samples : List (ℚ × ℚ × RVal)) (cell : ℚ × ℚ) : Option (ℚ × RVal) :=
  samples.foldl (nearestStep cell) none

/-- The mask condition `dist > t` on an integer threshold `t`, expressed on the
squared distance: for `t < 0` every (nonnegative) distance exceeds it, else
`dist > t ↔ dist² > t²`. -/
def maskFar (dsq : ℚ) (t : ℤ) : Bool :=
  if t < 0 then true else decide (dsq > (t : ℚ) ^ 2)

/-- The gridding mask threshold `np.floor(np.sqrt(1/res))-1` (line 414), via
`⌊√q⌋ = Nat.sqrt ⌊q⌋` for `q ≥ 0`. -/
def gridThreshold (res : ℚ) : ℤ :=
  (Nat.sqrt (⌊1 / res⌋).toNat : ℤ) - 1

/-- The final masked value of one grid cell, `make_map` lines 403-419: nearest
interpolation, then invalidate cells farther than the threshold from any
sample, cells whose value is literally `0`, infinite values (and NaN, masked by
`masked_invalid`). `some q` is a valid cell of intensity `q`, `none` an
invalid (masked) cell. -/
def gridCell (samples : List (ℚ × ℚ × RVal)) (cell : ℚ × ℚ) (t : ℤ) : Option ℚ :=
  match nearest samples cell with
  | none => none
  | some (dsq, v) =>
    if maskFar dsq t then none
    else match v with
      | RVal.fin q => if q = 0 then none else some q
      | _ => none

/-! ### Bearing post-filter — `map` line 283 and `runningMeanFast`
(`pyhum_utils.py` lines 102-109)

```
bearing = humutils.runningMeanFast(bearing, len(bearing)/100)

def runningMeanFast(x, N):
    x = convolve(x, ones((N,))/N)[(N-1):]
    x[-N:] = x[-N]
    return x
```
-/

/-- `np.convolve a v` in the default `full` mode:
`out[k] = Σ_j a[j]·v[k−j]`, `k = 0, …, len(a)+len(v)−2`. -/
def convolveFull (a v : List ℚ) : List ℚ :=
  (List.range (a.length + v.length - 1)).map (fun k =>
    ∑ j ∈ Finset.range a.length,
      a.getD j 0 * (if j ≤ k then v.getD (k - j) 0 else 0))

/-- `convolve(x, ones((N,))/N)[(N-1):]`: moving average of window `N`,
trailing `N−1` boundary-affected entries discarded from the front. -/
def convTrunc (x : List ℚ) (N : ℕ) : List ℚ :=
  (convolveFull x (List.replicate N (1 / (N : ℚ)))).drop (N - 1)

/-- `runningMeanFast(x, N)` (`pyhum_utils.py` lines 102-109), for an integer
window `1 ≤ N ≤ len(x)` (the driver passes `len(bearing)/100`, a Python float;
it is an integer exactly when `100 | len(bearing)`): the moving average with
its last `N` entries all set to the entry at position `len−N`
(`x[-N:] = x[-N]`). -/
def runningMeanFast (x : List ℚ) (N : ℕ) : List ℚ :=
  let y := convTrunc x N
  y.take (y.length - N) ++ List.replicate (min N y.length) (y.getD (y.length - N) 0)

/-- The driver call `bearing = humutils.runningMeanFast(bearing, len(bearing)/100)`
(`map` line 283), with the window as the integer `len/100` (faithful to the
Python float division exactly when `100 | len`). -/
def map_filt_bearing (bearing : List ℚ) : List ℚ :=
  runningMeanFast bearing (bearing.length / 100)

/-! ### Heading denoiser — `map` lines 256-274

```
if np.std(bearing)>180:
   k_means = MiniBatchKMeans(2); k_means.fit(column_stack([bearing, bearing]))
   labels = k_means.labels_
   if np.sum(labels==0) > np.sum(labels==1): bearing[labels==1] = np.nan
   else: bearing[labels==0] = np.nan
   nans, y = humutils.nan_helper(bearing)
   bearing[nans] = np.interp(y(nans), y(~nans), bearing[~nans])
```
`MiniBatchKMeans` is a randomized iterative algorithm; it is modelled by an
arbitrary labelling together with the predicate `kmeansFixedLabeling` that
holds exactly of the labellings a converged 2-means run can return (each point
strictly nearer its own cluster's centroid). -/

/-- Mean of a list of rationals (`np.mean`; `0` on the empty list). -/
def meanQ (xs : List ℚ) : ℚ := xs.sum / xs.length

/-- Population variance (`np.std(xs)²`, `ddof = 0`). -/
def varQ (xs : List ℚ) : ℚ := meanQ (xs.map (fun x => (x - meanQ xs) ^ 2))

/-- The label value whose cluster the code marks as NaN: cluster `1` when
cluster `0` is strictly larger, else cluster `0` (lines 268-271). -/
def markedLabel (labels : List Bool) : Bool :=
  decide ((labels.filter (fun l => !l)).length > (labels.filter (fun l => l)).length)

/-- `bearing[labels==1] = np.nan` resp. `bearing[labels==0] = np.nan`
(lines 268-271): `none` is NaN. -/
def markMinority (bearing : List ℚ) (labels : List Bool) : List (Option ℚ) :=
  (bearing.zip labels).map (fun p => if p.2 = markedLabel labels then none else some p.1)

/-- The interpolation knots: indices and values of the surviving (non-NaN)
entries (`y(~nans), bearing[~nans]` of `nan_helper`). -/
def knots (b : List (Option ℚ)) : List (ℕ × ℚ) :=
  b.enum.filterMap (fun p => p.2.map (fun q => (p.1, q)))

/-- `np.interp` past the first knot: clamp to the last knot's value beyond it,
linear interpolation between bracketing knots inside. -/
def interpGo (x0 : ℕ) (v0 : ℚ) : List (ℕ × ℚ) → ℕ → ℚ
  | [], _ => v0
  | (x1, v1) :: rest, i =>
    if i ≤ x1 then v0 + (v1 - v0) * (((i : ℚ) - x0) / ((x1 : ℚ) - x0))
    else interpGo x1 v1 rest i

/-- `np.interp i ks`: `none` when there are no knots at all (numpy would
raise), clamped/linear interpolation otherwise. -/
def interpAt (ks : List (ℕ × ℚ)) (i : ℕ) : Option ℚ :=
  match ks with
  | [] => none
  | (x0, v0) :: rest => if i ≤ x0 then some v0 else some (interpGo x0 v0 rest i)

/-- `bearing[nans] = np.interp(y(nans), y(~nans), bearing[~nans])`
(lines 273-274): fill every NaN by interpolation over the index axis. -/
def fillNans (b : List (Option ℚ)) : List (Option ℚ) :=
  b.enum.map (fun p =>
    match p.2 with
    | some q => some q
    | none => interpAt (knots b) p.1)

/-- The heading-denoiser branch of `map`, lines 256-274: triggered when
`std(bearing) > 180` (equivalently `var > 180²`), given the clustering labels
returned by k-means. -/
def headingDenoise (bearing : List ℚ) (labels : List Bool) : List (Option ℚ) :=
  if varQ bearing > 180 ^ 2 then fillNans (markMinority bearing labels)
  else bearing.map some

/-- The values of one cluster. -/
def clusterVals (bearing : List ℚ) (labels : List Bool) (l : Bool) : List ℚ :=
  ((bearing.zip labels).filter (fun p => p.2 = l)).map (fun p => p.1)

/-- A labelling that a converged 2-means on `(bearing, bearing)` pairs can
return: both clusters inhabited and every point strictly nearer its own
cluster's centroid than the other's (a strict fixed point of Lloyd's
iteration; distances on the duplicated pairs are twice the 1-D ones, so the
1-D comparison is equivalent). -/
def kmeansFixedLabeling (bearing : List ℚ) (labels : List Bool) : Bool :=
  (labels.length == bearing.length) &&
  (!(clusterVals bearing labels false).isEmpty) &&
  (!(clusterVals bearing labels true).isEmpty) &&
  ((bearing.zip labels).all (fun p =>
    if p.2 then
      (p.1 - meanQ (clusterVals bearing labels true)) ^ 2
        < (p.1 - meanQ (clusterVals bearing labels false)) ^ 2
    else
      (p.1 - meanQ (clusterVals bearing labels false)) ^ 2
        < (p.1 - meanQ (clusterVals bearing labels true)) ^ 2))

/-! ### Metadata persistence — `map` lines 276-279 and the import block

```
from scipy.io import loadmat          # line 59: only loadmat is imported
...
meta = loadmat(sonpath+base+'meta.mat')
meta['heading_filt'] = bearing
savemat(sonpath+base+'meta.mat', meta, oned_as='row')   # savemat: NameError
```
-/

/-- The names bound by the import block of `_pyhum_map.py`, lines 58-84. -/
def pyhum_map_imports : List String :=
  ["division", "loadmat", "os", "time", "sys", "getopt",
   "Tk", "askopenfilename", "askdirectory",
   "Parallel", "delayed", "cpu_count", "pyproj",
   "np", "humutils", "griddata", "KDTree", "median_filter",
   "plt", "Basemap", "simplekml"]

/-- Whether the name `savemat` resolves in the module (it does not: line 59
imports only `loadmat` from `scipy.io`). -/
def savematImported : Bool := pyhum_map_imports.contains "savemat"

/-- The metadata store: keys to arrays. -/
abbrev MetaStore := List (String × List ℚ)

/-- Lines 277-279: re-load the store, add `heading_filt`, call `savemat`.
In Python a call to an unbound name raises `NameError` at the call, so the
write happens only if `savemat` is an imported name. -/
def persistHeadingFilt (meta : MetaStore) (bearing : List ℚ) : Except String MetaStore :=
  if savematImported then Except.ok (meta ++ [("heading_filt", bearing)])
  else Except.error "NameError: savemat is not defined"

/-! ## Theorems -/

/-! ### C3: range corrector -/

/-- C3: for every speed of sound `c` and depth `dep`, the code's range
corrector computes `tvg = ((8.5e-5) + (3/76923) + (8.5e-5/4)) · c` and
`ground range = tan(25°)·dep − tvg`, with exactly these constants and no
other terms. -/
theorem range_corrector_exact (c dep : ℝ) :
    tvg c = spec_tvg c ∧ dist_tvg dep c = spec_ground_range dep c := by
  constructor
  · unfold tvg spec_tvg
    norm_num
  · unfold dist_tvg spec_ground_range tvg spec_tvg
    norm_num

/-! ### C4: bearing estimator -/

/-- C4: the bearing estimator computes exactly the spec's great-circle
initial-bearing formula (on the radian versions of its degree inputs), and in
particular for the fixes `(0,0)` and `(0,1)` it returns 90 degrees. -/
theorem bearingBetweenPoints_spec :
    (∀ p1lat p2lat p1lon p2lon : ℝ,
      bearingBetweenPoints p1lat p2lat p1lon p2lon =
        spec_bearing (deg2rad p1lat) (deg2rad p2lat) (deg2rad p1lon) (deg2rad p2lon)) ∧
    bearingBetweenPoints 0 0 0 1 = 90 := by
  constructor
  · intro p1lat p2lat p1lon p2lon
    rfl
  · have hd0 : deg2rad 0 = 0 := by simp [deg2rad]
    have hd1 : deg2rad 1 = Real.pi / 180 := by simp [deg2rad]
    have hsin : (0 : ℝ) ≤ Real.sin (Real.pi / 180) := by
      apply Real.sin_nonneg_of_nonneg_of_le_pi
      · positivity
      · have := Real.pi_pos
        linarith
    have harg : arctan2 0 (Real.sin (Real.pi / 180) * Real.cos 0) = 0 := by
      have h1 : Real.sin (Real.pi / 180) * Real.cos 0 = Real.sin (Real.pi / 180) := by
        simp
      rw [h1]
      show Complex.arg ⟨Real.sin (Real.pi / 180), 0⟩ = 0
      have h2 : (⟨Real.sin (Real.pi / 180), 0⟩ : ℂ) = ((Real.sin (Real.pi / 180) : ℝ) : ℂ) := rfl
      rw [h2]
      exact Complex.arg_ofReal_of_nonneg hsin
    unfold bearingBetweenPoints
    rw [hd0, hd1]
    have hnum : Real.cos 0 * Real.sin 0 -
        Real.sin 0 * Real.cos 0 * Real.cos (Real.pi / 180 - 0) = 0 := by
      simp
    rw [show Real.pi / 180 - 0 = Real.pi / 180 by ring] at *
    rw [hnum, harg]
    have hr : rad2deg 0 = 0 := by simp [rad2deg]
    rw [hr]
    unfold pymod
    rw [show (90 : ℝ) - 0 + 360 = 450 by norm_num]
    rw [show ⌊(450 : ℝ) / 360⌋ = 1 from by
      apply Int.floor_eq_iff.mpr
      norm_num]
    norm_num

/-! ### C1: beam reconstruction at heading 0 -/

/-- C1 counterexample: at heading `t = 0`, ping `(e,n) = (0,0)`, ground range
`d = 3`, `pix_m = 5`, `extent = 1`, the reconstructed world Y of the first
across-track sample is `7 = 0 + √(yvec² − d²) + d`, not `4 = 0 + √(yvec² − d²)`
as the claim states: `calc_beam_pos` adds the extra term `d·cos 0 = d`. -/
theorem beamY_theta0_counterexample :
    beamY 0 0 0 3 5 1 0 = 7 ∧
    (0 : ℝ) + Real.sqrt ((yvec 5 1 0) ^ 2 - 3 ^ 2) = 4 ∧
    beamY 0 0 0 3 5 1 0 ≠ (0 : ℝ) + Real.sqrt ((yvec 5 1 0) ^ 2 - 3 ^ 2) := by
  have hy : yvec 5 1 0 = 5 := by simp [yvec, linspace]
  have hs : Real.sqrt ((yvec 5 1 0) ^ 2 - 3 ^ 2) = 4 := by
    rw [hy, show (5 : ℝ) ^ 2 - 3 ^ 2 = 4 ^ 2 by norm_num]
    exact Real.sqrt_sq (by norm_num)
  have hrd : rangedist 5 1 3 0 = 4 := by
    unfold rangedist
    exact hs
  have hb : beamY 0 0 0 3 5 1 0 = 7 := by
    unfold beamY calc_beam_pos rotY xRaw yRaw
    simp [hrd]
    norm_num
  refine ⟨hb, by rw [hs]; norm_num, by rw [hb, hs]; norm_num⟩

/-- C1 amended: at heading `t[k] = 0` the reconstructed world Y of sample
`i < 2·extent` is `n + √(yvec_i² − d²) + d` on the first across-track half and
`n − √(yvec_{i−extent}² − d²) + d` on the second: the claimed `n ± √(yvec² − d²)`
plus the `calc_beam_pos` offset `d·cos 0 = d`. -/
theorem beamY_theta0 (e n d pix_m : ℝ) (extent i : ℕ) (hi : i < 2 * extent) :
    beamY e n 0 d pix_m extent i =
      (if i < extent then n + Real.sqrt ((yvec pix_m extent i) ^ 2 - d ^ 2) + d
       else n - Real.sqrt ((yvec pix_m extent (i - extent)) ^ 2 - d ^ 2) + d) := by
  unfold beamY calc_beam_pos rotY xRaw yRaw rangedist
  by_cases h : i < extent <;> simp [h] <;> ring

/-- Witness for `beamY_theta0` at `e = n = 0`, `d = 3`, `pix_m = 5`,
`extent = 1`, `i = 0`. -/
theorem beamY_theta0_witness :
    0 < 2 * 1 ∧
    beamY 0 0 0 3 5 1 0 =
      (if 0 < 1 then (0 : ℝ) + Real.sqrt ((yvec 5 1 0) ^ 2 - 3 ^ 2) + 3
       else (0 : ℝ) - Real.sqrt ((yvec 5 1 (0 - 1)) ^ 2 - 3 ^ 2) + 3) :=
  ⟨by norm_num, beamY_theta0 0 0 3 5 1 0 (by norm_num)⟩

/-! ### C2: across-track sample vector -/

/-- C2 counterexample: for `pix_m = 2`, `extent = 2`, the code's `yvec`
(`linspace(pix_m, extent·pix_m, extent)`) starts at `pix_m = 2`, not at `0`
as the claim's "linearly spaced from 0 to extent·pix_m" requires. -/
theorem yvec_counterexample :
    yvec 2 2 0 = 2 ∧ claimC2_yvec 2 2 0 = 0 ∧ yvec 2 2 0 ≠ claimC2_yvec 2 2 0 := by
  refine ⟨?_, ?_, ?_⟩ <;> norm_num [yvec, claimC2_yvec, linspace]

/-- `yvec` in closed form: `linspace(pix_m, extent·pix_m, extent)` has constant
step `pix_m`, so `yvec_j = pix_m·(j+1)` for `j < extent`. -/
theorem yvec_closed_form (pix_m : ℝ) (extent j : ℕ) (hj : j < extent) :
    yvec pix_m extent j = pix_m * (j + 1) := by
  unfold yvec linspace
  by_cases h : extent ≤ 1
  · have he : extent = 1 := by omega
    subst he
    interval_cases j
    simp
  · rw [if_neg h]
    push_neg at h
    have h2 : (2 : ℝ) ≤ (extent : ℝ) := by exact_mod_cast h
    have hne : (extent : ℝ) - 1 ≠ 0 := by linarith
    field_simp
    ring

/-- C2 amended: the across-track sample vector has length `2·extent`; its
first half is `n + √(yvec_j² − d²)` and its second half `n − √(yvec_j² − d²)`,
where `yvec` is linearly spaced from `pix_m` (not `0`) to `extent·pix_m`. -/
theorem across_track_vector (n pix_m d : ℝ) (extent j : ℕ) (hj : j < extent) :
    (yAcross n pix_m d extent).length = 2 * extent ∧
    (yAcross n pix_m d extent).getD j 0 =
      n + Real.sqrt ((yvec pix_m extent j) ^ 2 - d ^ 2) ∧
    (yAcross n pix_m d extent).getD (extent + j) 0 =
      n - Real.sqrt ((yvec pix_m extent j) ^ 2 - d ^ 2) ∧
    yvec pix_m extent j = pix_m * (j + 1) := by
  have hlen : (yAcross n pix_m d extent).length = 2 * extent := by
    simp [yAcross, two_mul]
  refine ⟨hlen, ?_, ?_, yvec_closed_form pix_m extent j hj⟩
  · have hbound1 : j < (yAcross n pix_m d extent).length := by
      rw [hlen]; omega
    rw [List.getD_eq_getElem _ _ hbound1]
    unfold yAcross
    rw [List.getElem_append_left (by simpa using hj)]
    simp [rangedist]
  · have hbound : extent + j < (yAcross n pix_m d extent).length := by
      rw [hlen]; omega
    rw [List.getD_eq_getElem _ _ hbound]
    unfold yAcross
    rw [List.getElem_append_right (by simp)]
    simp [rangedist]

/-- Witness for `across_track_vector` at `n = 0`, `pix_m = 2`, `d = 0`,
`extent = 2`, `j = 0`. -/
theorem across_track_vector_witness :
    0 < 2 ∧
    ((yAcross 0 2 0 2).length = 2 * 2 ∧
     (yAcross 0 2 0 2).getD 0 0 = 0 + Real.sqrt ((yvec 2 2 0) ^ 2 - 0 ^ 2) ∧
     (yAcross 0 2 0 2).getD (2 + 0) 0 = 0 - Real.sqrt ((yvec 2 2 0) ^ 2 - 0 ^ 2) ∧
     yvec 2 2 0 = 2 * (((0 : ℕ) : ℝ) + 1)) :=
  ⟨by norm_num, across_track_vector 0 2 0 2 0 (by norm_num)⟩

/-! ### C8: point-cloud sanitizer -/

theorem filterByMask_cons (b : Bool) (ms : List Bool) (x : α) (xs : List α) :
    filterByMask (b :: ms) (x :: xs) =
      if b then x :: filterByMask ms xs else filterByMask ms xs := by
  by_cases hb : b <;> simp [filterByMask, hb]

theorem sanitize_nil : sanitize [] [] [] = ([], [], []) := rfl

theorem sanitize_cons (x y m : RVal) (X Y M : List RVal) :
    sanitize (x :: X) (y :: Y) (m :: M) =
      if !y.isnan && !x.isnan && !m.isnan then
        (x :: (sanitize X Y M).1, y :: (sanitize X Y M).2.1, m :: (sanitize X Y M).2.2)
      else sanitize X Y M := by
  cases hy : y.isnan <;> cases hx : x.isnan <;> cases hm : m.isnan <;>
    simp [sanitize, notNanMask, filterByMask_cons, hy, hx, hm]

/-- The sequential three-step removal equals the single 3-way mask. -/
theorem sanitize_eq_spec (X Y M : List RVal)
    (hXY : X.length = Y.length) (hYM : Y.length = M.length) :
    sanitize X Y M = sanitizeSpec X Y M := by
  induction X generalizing Y M with
  | nil =>
    have h1 : Y = [] := List.length_eq_zero.mp (by simpa using hXY.symm)
    subst h1
    have h2 : M = [] := List.length_eq_zero.mp (by simpa using hYM.symm)
    subst h2
    rfl
  | cons x X ih =>
    cases Y with
    | nil => simp at hXY
    | cons y Y =>
      cases M with
      | nil => simp at hYM
      | cons m M =>
        have hXY' : X.length = Y.length := by simpa using hXY
        have hYM' : Y.length = M.length := by simpa using hYM
        have ihh := ih Y M hXY' hYM'
        rw [sanitize_cons, ihh]
        cases hy : y.isnan <;> cases hx : x.isnan <;> cases hm : m.isnan <;>
          simp [sanitizeSpec, sanitizedTriples, hy, hx, hm]

/-- C8 counterexample: the sanitizer removes NaN entries only; an infinite
coordinate survives it, so "no NaN or Inf remains" fails: on
`X = [Inf], Y = [0], Intensity = [1]` nothing is removed and the sanitized `X`
still contains an Inf. -/
theorem sanitize_inf_counterexample :
    sanitize [RVal.inf] [RVal.fin 0] [RVal.fin 1] =
      ([RVal.inf], [RVal.fin 0], [RVal.fin 1]) ∧
    (sanitize [RVal.inf] [RVal.fin 0] [RVal.fin 1]).1.any (fun v => v.isinf) = true := by
  constructor <;> rfl

/-- C8 amended: for equal-length `X`, `Y`, `Intensity`, the three sequential
removal steps equal the single 3-way mask keeping index `i` iff none of
`X[i]`, `Y[i]`, `Intensity[i]` is NaN; the results have one common length and
contain no NaN (Inf values are not removed). -/
theorem sanitize_spec_theorem (X Y M : List RVal)
    (hXY : X.length = Y.length) (hYM : Y.length = M.length) :
    sanitize X Y M = sanitizeSpec X Y M ∧
    (sanitize X Y M).1.length = (sanitize X Y M).2.1.length ∧
    (sanitize X Y M).2.1.length = (sanitize X Y M).2.2.length ∧
    (sanitize X Y M).1.all (fun v => !v.isnan) ∧
    (sanitize X Y M).2.1.all (fun v => !v.isnan) ∧
    (sanitize X Y M).2.2.all (fun v => !v.isnan) := by
  have hs := sanitize_eq_spec X Y M hXY hYM
  rw [hs]
  refine ⟨rfl, by simp [sanitizeSpec], by simp [sanitizeSpec], ?_, ?_, ?_⟩ <;>
  · simp only [sanitizeSpec, sanitizedTriples, List.all_eq_true, List.mem_map,
      List.mem_filter, Bool.and_eq_true]
    rintro v ⟨p, ⟨_, hpred⟩, rfl⟩
    tauto

/-- Witness for `sanitize_spec_theorem` on
`X = [1, NaN], Y = [NaN, 2], Intensity = [3, 4]`. -/
theorem sanitize_spec_theorem_witness :
    ([RVal.fin 1, RVal.nan].length = [RVal.nan, RVal.fin 2].length) ∧
    ([RVal.nan, RVal.fin 2].length = [RVal.fin 3, RVal.fin 4].length) ∧
    (sanitize [RVal.fin 1, RVal.nan] [RVal.nan, RVal.fin 2] [RVal.fin 3, RVal.fin 4] =
      sanitizeSpec [RVal.fin 1, RVal.nan] [RVal.nan, RVal.fin 2] [RVal.fin 3, RVal.fin 4] ∧
     (sanitize [RVal.fin 1, RVal.nan] [RVal.nan, RVal.fin 2] [RVal.fin 3, RVal.fin 4]).1.length =
      (sanitize [RVal.fin 1, RVal.nan] [RVal.nan, RVal.fin 2] [RVal.fin 3, RVal.fin 4]).2.1.length ∧
     (sanitize [RVal.fin 1, RVal.nan] [RVal.nan, RVal.fin 2] [RVal.fin 3, RVal.fin 4]).2.1.length =
      (sanitize [RVal.fin 1, RVal.nan] [RVal.nan, RVal.fin 2] [RVal.fin 3, RVal.fin 4]).2.2.length ∧
     (sanitize [RVal.fin 1, RVal.nan] [RVal.nan, RVal.fin 2] [RVal.fin 3, RVal.fin 4]).1.all
        (fun v => !v.isnan) ∧
     (sanitize [RVal.fin 1, RVal.nan] [RVal.nan, RVal.fin 2] [RVal.fin 3, RVal.fin 4]).2.1.all
        (fun v => !v.isnan) ∧
     (sanitize [RVal.fin 1, RVal.nan] [RVal.nan, RVal.fin 2] [RVal.fin 3, RVal.fin 4]).2.2.all
        (fun v => !v.isnan)) :=
  ⟨rfl, rfl, sanitize_spec_theorem _ _ _ rfl rfl⟩

/-! ### C10: NaN intensities become 0, are kept, and are masked only by gridding -/

/-- C10: every NaN of the merged intensity matrix is replaced by `0`
(line 346), so the intensity-NaN step of the sanitizer removes nothing — the
3-way mask degenerates to the 2-way mask on the coordinates — and a sample
whose recorded intensity was NaN but whose coordinates are valid appears among
the point-cloud triples with intensity `0`; under gridding, a cell whose
nearest sample has value `0` is masked invalid. -/
theorem nan_intensity_becomes_zero (X Y M : List RVal)
    (hXY : X.length = Y.length) (hYM : Y.length = M.length)
    (i : ℕ) (hi : i < X.length)
    (hm : (M.getD i (RVal.fin 0)).isnan = true)
    (hx : (X.getD i (RVal.fin 0)).isnan = false)
    (hy : (Y.getD i (RVal.fin 0)).isnan = false) :
    (replaceNanZero M).all (fun v => !v.isnan) ∧
    sanitizedTriples X Y (replaceNanZero M) =
      (X.zip (Y.zip (replaceNanZero M))).filter
        (fun p => !p.1.isnan && !p.2.1.isnan) ∧
    (X.getD i (RVal.fin 0), (Y.getD i (RVal.fin 0), RVal.fin 0)) ∈
      sanitizedTriples X Y (replaceNanZero M) ∧
    (∀ samples cell t dsq, nearest samples cell = some (dsq, RVal.fin 0) →
      gridCell samples cell t = none) := by
  have hno : ∀ v ∈ replaceNanZero M, v.isnan = false := by
    simp only [replaceNanZero, List.mem_map]
    rintro v ⟨w, _, rfl⟩
    cases hw : w.isnan
    · simp [hw]
    · simp [hw, RVal.isnan]
  refine ⟨?_, ?_, ?_, ?_⟩
  · simp only [List.all_eq_true, Bool.not_eq_true']
    exact hno
  · apply List.filter_congr
    rintro ⟨a, b, c⟩ hp
    have hc : c ∈ replaceNanZero M := ((List.of_mem_zip ((List.of_mem_zip hp).2)).2)
    rw [hno c hc]
    simp
  · have hiY : i < Y.length := by omega
    have hiM : i < M.length := by omega
    have hiM' : i < (replaceNanZero M).length := by simp [replaceNanZero]; omega
    have hxe : X.getD i (RVal.fin 0) = X[i] := List.getD_eq_getElem _ _ hi
    have hye : Y.getD i (RVal.fin 0) = Y[i] := List.getD_eq_getElem _ _ hiY
    have hme : M.getD i (RVal.fin 0) = M[i] := List.getD_eq_getElem _ _ hiM
    have hmz : (replaceNanZero M)[i] = RVal.fin 0 := by
      simp only [replaceNanZero, List.getElem_map]
      rw [hme] at hm
      simp [hm]
    apply List.mem_filter.mpr
    constructor
    · have hzi : i < (X.zip (Y.zip (replaceNanZero M))).length := by
        simp only [List.length_zip, replaceNanZero, List.length_map]
        omega
      have hval : (X.zip (Y.zip (replaceNanZero M)))[i] =
          (X.getD i (RVal.fin 0), (Y.getD i (RVal.fin 0), RVal.fin 0)) := by
        rw [List.getElem_zip, List.getElem_zip, hmz, hxe, hye]
      rw [← hval]
      exact List.getElem_mem hzi
    · rw [hxe] at hx
      rw [hye] at hy
      rw [hxe, hye]
      simp [hx, hy]
      rfl
  · intro samples cell t dsq hne
    unfold gridCell
    rw [hne]
    cases hmf : maskFar dsq t <;> simp [hmf]

/-- Witness for `nan_intensity_becomes_zero` on
`X = [1], Y = [2], Intensity = [NaN]`, `i = 0`. -/
theorem nan_intensity_becomes_zero_witness :
    ([RVal.fin 1].length = [RVal.fin 2].length) ∧
    ([RVal.fin 2].length = [RVal.nan].length) ∧
    (0 < [RVal.fin 1].length) ∧
    (([RVal.nan].getD 0 (RVal.fin 0)).isnan = true) ∧
    (([RVal.fin 1].getD 0 (RVal.fin 0)).isnan = false) ∧
    (([RVal.fin 2].getD 0 (RVal.fin 0)).isnan = false) ∧
    ((replaceNanZero [RVal.nan]).all (fun v => !v.isnan) ∧
     sanitizedTriples [RVal.fin 1] [RVal.fin 2] (replaceNanZero [RVal.nan]) =
       ([RVal.fin 1].zip ([RVal.fin 2].zip (replaceNanZero [RVal.nan]))).filter
         (fun p => !p.1.isnan && !p.2.1.isnan) ∧
     ([RVal.fin 1].getD 0 (RVal.fin 0), ([RVal.fin 2].getD 0 (RVal.fin 0), RVal.fin 0)) ∈
       sanitizedTriples [RVal.fin 1] [RVal.fin 2] (replaceNanZero [RVal.nan]) ∧
     (∀ samples cell t dsq, nearest samples cell = some (dsq, RVal.fin 0) →
       gridCell samples cell t = none)) :=
  ⟨rfl, rfl, by decide, rfl, rfl, rfl,
    nan_intensity_becomes_zero [RVal.fin 1] [RVal.fin 2] [RVal.nan]
      rfl rfl 0 (by decide) rfl rfl rfl⟩

/-! ### C9: gridding mask -/

theorem distSq_nonneg (a b : ℚ × ℚ) : 0 ≤ distSq a b := by
  unfold distSq
  positivity

/-- Soundness of the squared-distance encoding of the mask condition:
for a nonnegative squared distance, `maskFar dsq t` holds exactly when the
Euclidean distance `√dsq` exceeds the integer threshold `t`. -/
theorem maskFar_iff (dsq : ℚ) (t : ℤ) :
    maskFar dsq t = true ↔ (t : ℝ) < Real.sqrt ((dsq : ℝ)) := by
  unfold maskFar
  by_cases ht : t < 0
  · simp only [if_pos ht, true_iff]
    have h1 : ((t : ℝ)) < 0 := by exact_mod_cast ht
    have h2 := Real.sqrt_nonneg ((dsq : ℝ))
    linarith
  · simp only [if_neg ht, decide_eq_true_eq]
    push_neg at ht
    have ht' : (0 : ℝ) ≤ (t : ℝ) := by exact_mod_cast ht
    rw [Real.lt_sqrt ht']
    constructor
    · intro h2
      have h3 : ((t : ℚ) ^ 2 : ℚ) < dsq := h2
      exact_mod_cast h3
    · intro h2
      have h3 : ((t : ℝ) ^ 2) < ((dsq : ℝ)) := h2
      exact_mod_cast h3

/-- Soundness of `gridThreshold`: it equals the source's
`np.floor(np.sqrt(1/res))-1` read over the reals. -/
theorem gridThreshold_eq (res : ℚ) (hres : 0 < res) :
    gridThreshold res = ⌊Real.sqrt (((1 / res : ℚ) : ℝ))⌋ - 1 := by
  have hq : (0 : ℚ) ≤ 1 / res := by positivity
  have h0 : (0 : ℤ) ≤ ⌊(1 / res : ℚ)⌋ := Int.floor_nonneg.mpr hq
  have htn : ((⌊(1 / res : ℚ)⌋.toNat : ℤ)) = ⌊(1 / res : ℚ)⌋ := Int.toNat_of_nonneg h0
  set m : ℕ := ⌊(1 / res : ℚ)⌋.toNat with hm
  set s : ℕ := Nat.sqrt m with hs
  have hle : ((m : ℚ)) ≤ 1 / res := by
    calc ((m : ℚ)) = ((⌊(1 / res : ℚ)⌋ : ℤ) : ℚ) := by exact_mod_cast congrArg (fun z : ℤ => (z : ℚ)) htn
    _ ≤ 1 / res := Int.floor_le _
  have hlt : (1 / res : ℚ) < (m : ℚ) + 1 := by
    calc (1 / res : ℚ) < ((⌊(1 / res : ℚ)⌋ : ℤ) : ℚ) + 1 := Int.lt_floor_add_one _
    _ = ((m : ℚ)) + 1 := by rw [← htn]; push_cast; ring
  have h1 : s ^ 2 ≤ m := Nat.sqrt_le' m
  have h2 : m + 1 ≤ (s + 1) ^ 2 := Nat.succ_le_of_lt (by simpa [Nat.succ_eq_add_one] using Nat.lt_succ_sqrt' m)
  have hsle : ((s : ℝ)) ≤ Real.sqrt (((1 / res : ℚ) : ℝ)) := by
    rw [Real.le_sqrt (by positivity) (by positivity)]
    have ha : ((s : ℝ)) ^ 2 ≤ ((m : ℝ)) := by exact_mod_cast h1
    have hb : ((m : ℝ)) ≤ ((1 / res : ℚ) : ℝ) := by exact_mod_cast hle
    linarith
  have hslt : Real.sqrt (((1 / res : ℚ) : ℝ)) < (s : ℝ) + 1 := by
    rw [Real.sqrt_lt' (by positivity)]
    have ha : ((1 / res : ℚ) : ℝ) < ((m : ℝ)) + 1 := by exact_mod_cast hlt
    have hb : ((m : ℝ)) + 1 ≤ ((s : ℝ) + 1) ^ 2 := by exact_mod_cast h2
    linarith
  have hfl : ⌊Real.sqrt (((1 / res : ℚ) : ℝ))⌋ = (s : ℤ) := by
    apply Int.floor_eq_iff.mpr
    constructor
    · exact_mod_cast hsle
    · exact_mod_cast hslt
  unfold gridThreshold
  rw [hfl, ← hm, ← hs]

theorem nearest_head_at_cell (cx cy : ℚ) (v : RVal) (rest : List (ℚ × ℚ × RVal)) :
    nearest ((cx, cy, v) :: rest) (cx, cy) = some (0, v) := by
  unfold nearest
  rw [List.foldl_cons]
  have h0 : nearestStep (cx, cy) none (cx, cy, v) = some (0, v) := by
    unfold nearestStep distSq
    norm_num
  rw [h0]
  induction rest with
  | nil => rfl
  | cons s l ih =>
    rw [List.foldl_cons]
    have hstep : nearestStep (cx, cy) (some (0, v)) s = some (0, v) := by
      unfold nearestStep
      have hge : ¬ distSq (s.1, s.2.1) (cx, cy) < 0 :=
        not_lt.mpr (distSq_nonneg _ _)
      simp [hge]
    rw [hstep]
    exact ih

/-- C9 counterexample: with the default resolution `res = 0.05` the threshold
is `⌊√20⌋ − 1 = 3 ≥ 0`, and a grid cell exactly at the single sample
`(0, 0) ↦ 0` has nearest-sample distance `0`, yet the cell is masked invalid
(because the sample's value is literally `0`) instead of retaining the
sample's intensity value. -/
theorem grid_zero_value_counterexample :
    gridThreshold (1 / 20) = 3 ∧
    nearest [((0 : ℚ), (0 : ℚ), RVal.fin 0)] (0, 0) = some (0, RVal.fin 0) ∧
    gridCell [((0 : ℚ), (0 : ℚ), RVal.fin 0)] (0, 0) (gridThreshold (1 / 20)) = none := by
  have hth : gridThreshold (1 / 20) = 3 := by
    unfold gridThreshold
    have h1 : ⌊(1 : ℚ) / (1 / 20)⌋ = 20 := by norm_num
    rw [h1]
    have h2 : Nat.sqrt 20 = 4 := by
      symm
      rw [Nat.eq_sqrt']
      norm_num
    rw [show ((20 : ℤ).toNat) = 20 from rfl, h2]
    norm_num
  have hnear : nearest [((0 : ℚ), (0 : ℚ), RVal.fin 0)] (0, 0) = some (0, RVal.fin 0) := by
    unfold nearest
    rw [List.foldl_cons, List.foldl_nil]
    unfold nearestStep
    norm_num [distSq]
  refine ⟨hth, hnear, ?_⟩
  rw [hth]
  have hmf : maskFar 0 3 = false := by
    unfold maskFar
    rw [if_neg (by norm_num)]
    apply decide_eq_false
    norm_num
  unfold gridCell
  rw [hnear]
  simp [hmf]

/-- C9 amended: a grid cell whose nearest-sample distance exceeds the
threshold is invalid; a cell whose interpolated value is literally `0` or
infinite is invalid; and a cell exactly at a sample location retains that
sample's intensity value provided the value is finite and nonzero (and the
threshold is nonnegative). -/
theorem gridding_mask (samples : List (ℚ × ℚ × RVal)) (cell : ℚ × ℚ) (t : ℤ) :
    (∀ dsq v, 0 ≤ t → nearest samples cell = some (dsq, v) → (t : ℚ) ^ 2 < dsq →
      gridCell samples cell t = none) ∧
    (∀ dsq, nearest samples cell = some (dsq, RVal.fin 0) →
      gridCell samples cell t = none) ∧
    (∀ dsq, nearest samples cell = some (dsq, RVal.inf) →
      gridCell samples cell t = none) ∧
    (∀ cx cy q rest, 0 ≤ t → q ≠ 0 → samples = (cx, cy, RVal.fin q) :: rest →
      cell = (cx, cy) → gridCell samples cell t = some q) := by
  refine ⟨?_, ?_, ?_, ?_⟩
  · intro dsq v ht hne hgt
    have hmf : maskFar dsq t = true := by
      unfold maskFar
      rw [if_neg (by omega)]
      exact decide_eq_true hgt
    unfold gridCell
    rw [hne]
    simp [hmf]
  · intro dsq hne
    unfold gridCell
    rw [hne]
    cases hmf : maskFar dsq t <;> simp [hmf]
  · intro dsq hne
    unfold gridCell
    rw [hne]
    cases hmf : maskFar dsq t <;> simp [hmf]
  · intro cx cy q rest ht hq hsamp hcell
    subst hsamp
    subst hcell
    have hmf : maskFar 0 t = false := by
      unfold maskFar
      rw [if_neg (by omega)]
      apply decide_eq_false
      exact not_lt.mpr (by positivity)
    unfold gridCell
    rw [nearest_head_at_cell]
    simp [hmf, hq]

/-- Witness for `gridding_mask`: the cell at the single sample `(0,0) ↦ 5`
with threshold `3` keeps the value `5`. -/
theorem gridding_mask_witness :
    (0 : ℤ) ≤ 3 ∧ (5 : ℚ) ≠ 0 ∧
    gridCell [((0 : ℚ), (0 : ℚ), RVal.fin 5)] (0, 0) 3 = some 5 :=
  ⟨by norm_num, by norm_num,
    (gridding_mask [((0 : ℚ), (0 : ℚ), RVal.fin 5)] (0, 0) 3).2.2.2
      0 0 5 [] (by norm_num) (by norm_num) rfl rfl⟩

/-! ### C7: bearing post-filter (running mean) -/

theorem convolveFull_single (a : List ℚ) : convolveFull a [(1 : ℚ)] = a := by
  apply List.ext_getElem
  · simp [convolveFull]
  · intro i h1 h2
    simp only [convolveFull, List.getElem_map, List.getElem_range]
    rw [Finset.sum_eq_single i]
    · rw [List.getD_eq_getElem _ _ h2]
      simp
    · intro j hj hne
      have hjlt : j < a.length := Finset.mem_range.mp hj
      by_cases hle : j ≤ i
      · have hpos : i - j ≠ 0 := by omega
        obtain ⟨k, hk⟩ : ∃ k, i - j = k + 1 := ⟨i - j - 1, by omega⟩
        rw [if_pos hle, hk]
        rw [show ([(1 : ℚ)].getD (k + 1) 0) = 0 from rfl]
        ring
      · rw [if_neg hle]
        ring
    · intro habs
      exact absurd (Finset.mem_range.mpr (by simpa using h2)) habs

theorem convTrunc_one (x : List ℚ) : convTrunc x 1 = x := by
  unfold convTrunc
  have hc : (1 : ℚ) / ((1 : ℕ) : ℚ) = 1 := by norm_num
  rw [hc, show List.replicate 1 (1 : ℚ) = [(1 : ℚ)] from rfl, convolveFull_single]
  simp

theorem runningMeanFast_one (x : List ℚ) : runningMeanFast x 1 = x := by
  unfold runningMeanFast
  rw [convTrunc_one]
  by_cases hx : x = []
  · subst hx
    rfl
  · have h1 : 0 < x.length := List.length_pos.mpr hx
    have hmin : min 1 x.length = 1 := by omega
    show List.take (x.length - 1) x ++
      List.replicate (min 1 x.length) (x.getD (x.length - 1) 0) = x
    rw [hmin]
    have hgd : x.getD (x.length - 1) 0 = x.getLast hx := by
      rw [List.getLast_eq_getElem]
      exact List.getD_eq_getElem _ _ (by omega)
    rw [hgd, show List.replicate 1 (x.getLast hx) = [x.getLast hx] from rfl]
    rw [← List.dropLast_eq_take]
    exact List.dropLast_concat_getLast hx

theorem getD_take_of_lt (y : List ℚ) (m i : ℕ) (h : i < m) :
    (y.take m).getD i 0 = y.getD i 0 := by
  rw [List.getD_eq_getElem?_getD, List.getD_eq_getElem?_getD, List.getElem?_take_of_lt h]

theorem convTrunc_length (x : List ℚ) (N : ℕ) (hN : 1 ≤ N) :
    (convTrunc x N).length = x.length := by
  simp only [convTrunc, convolveFull, List.length_drop, List.length_map,
    List.length_range, List.length_replicate]
  omega

/-- C7 counterexample: for a bearing of length 100 the window is
`len/100 = 1`, the moving average is the identity, and `x[-1:] = x[-1]`
leaves the last sample unchanged (value `1`), whereas the claim's "set to the
value just before the trailing window" predicts the value at position
`len − N − 1 = 98` (which is `0`). -/
theorem runningMeanFast_clamp_counterexample :
    (List.replicate 99 (0 : ℚ) ++ [1]).length / 100 = 1 ∧
    map_filt_bearing (List.replicate 99 (0 : ℚ) ++ [1]) = List.replicate 99 (0 : ℚ) ++ [1] ∧
    (map_filt_bearing (List.replicate 99 (0 : ℚ) ++ [1])).getD 99 0 = 1 ∧
    (convTrunc (List.replicate 99 (0 : ℚ) ++ [1]) 1).getD 98 0 = 0 ∧
    (map_filt_bearing (List.replicate 99 (0 : ℚ) ++ [1])).getD 99 0 ≠
      (convTrunc (List.replicate 99 (0 : ℚ) ++ [1]) 1).getD 98 0 := by
  have hlen : (List.replicate 99 (0 : ℚ) ++ [1]).length = 100 := by simp
  have hN : (List.replicate 99 (0 : ℚ) ++ [1]).length / 100 = 1 := by rw [hlen]
  have hrm : map_filt_bearing (List.replicate 99 (0 : ℚ) ++ [1]) =
      List.replicate 99 (0 : ℚ) ++ [1] := by
    unfold map_filt_bearing
    rw [hN, runningMeanFast_one]
  have h99 : (List.replicate 99 (0 : ℚ) ++ [1]).getD 99 0 = 1 := by
    rw [List.getD_append_right _ _ _ _ (by simp)]
    simp
  have h98 : (List.replicate 99 (0 : ℚ) ++ [1]).getD 98 0 = 0 := by
    rw [List.getD_append _ _ _ _ (by simp)]
    rw [List.getD_eq_getElem _ _ (by simp)]
    simp
  refine ⟨hN, hrm, by rw [hrm, h99], by rw [convTrunc_one, h98], ?_⟩
  rw [hrm, h99, convTrunc_one, h98]
  norm_num

/-- C7 amended: the post-filter smooths by a moving average of window
`N = len(bearing)/100` (true division in the source; an integer — with no
minimum applied — exactly when `100 | len`), and the trailing `N` samples of
the convolution result are all set to the value at position `len − N`, the
first entry **of** the trailing window (not the value just before it). -/
theorem runningMeanFast_clamp (x : List ℚ)
    (hdvd : (100 : ℕ) ∣ x.length) (hlen : 100 ≤ x.length) :
    map_filt_bearing x = runningMeanFast x (x.length / 100) ∧
    1 ≤ x.length / 100 ∧
    (runningMeanFast x (x.length / 100)).length = x.length ∧
    (∀ i, i < x.length - x.length / 100 →
      (runningMeanFast x (x.length / 100)).getD i 0 =
        (convTrunc x (x.length / 100)).getD i 0) ∧
    (∀ i, x.length - x.length / 100 ≤ i → i < x.length →
      (runningMeanFast x (x.length / 100)).getD i 0 =
        (convTrunc x (x.length / 100)).getD (x.length - x.length / 100) 0) := by
  set N : ℕ := x.length / 100 with hNdef
  have hN1 : 1 ≤ N := by omega
  have hNle : N ≤ x.length := Nat.div_le_self _ _
  have hyl : (convTrunc x N).length = x.length := convTrunc_length x N hN1
  have hrm : runningMeanFast x N =
      (convTrunc x N).take ((convTrunc x N).length - N) ++
        List.replicate (min N (convTrunc x N).length)
          ((convTrunc x N).getD ((convTrunc x N).length - N) 0) := rfl
  have hmin : min N (convTrunc x N).length = N := by omega
  have htl : ((convTrunc x N).take ((convTrunc x N).length - N)).length = x.length - N := by
    rw [List.length_take]
    omega
  refine ⟨rfl, hN1, ?_, ?_, ?_⟩
  · rw [hrm, List.length_append, htl, List.length_replicate]
    omega
  · intro i hi
    rw [hrm, List.getD_append _ _ _ _ (by rw [htl]; omega)]
    exact getD_take_of_lt _ _ _ (by omega)
  · intro i hi1 hi2
    rw [hrm, List.getD_append_right _ _ _ _ (by rw [htl]; omega), htl, hmin, hyl]
    rw [List.getD_eq_getElem _ _ (by rw [List.length_replicate]; omega)]
    simp

/-- Witness for `runningMeanFast_clamp` at a constant bearing of length 100. -/
theorem runningMeanFast_clamp_witness :
    ((100 : ℕ) ∣ (List.replicate 100 (0 : ℚ)).length) ∧
    (100 ≤ (List.replicate 100 (0 : ℚ)).length) ∧
    (map_filt_bearing (List.replicate 100 (0 : ℚ)) =
      runningMeanFast (List.replicate 100 (0 : ℚ))
        ((List.replicate 100 (0 : ℚ)).length / 100) ∧
     1 ≤ (List.replicate 100 (0 : ℚ)).length / 100 ∧
     (runningMeanFast (List.replicate 100 (0 : ℚ))
        ((List.replicate 100 (0 : ℚ)).length / 100)).length =
       (List.replicate 100 (0 : ℚ)).length ∧
     (∀ i, i < (List.replicate 100 (0 : ℚ)).length -
          (List.replicate 100 (0 : ℚ)).length / 100 →
       (runningMeanFast (List.replicate 100 (0 : ℚ))
          ((List.replicate 100 (0 : ℚ)).length / 100)).getD i 0 =
         (convTrunc (List.replicate 100 (0 : ℚ))
            ((List.replicate 100 (0 : ℚ)).length / 100)).getD i 0) ∧
     (∀ i, (List.replicate 100 (0 : ℚ)).length -
          (List.replicate 100 (0 : ℚ)).length / 100 ≤ i →
        i < (List.replicate 100 (0 : ℚ)).length →
       (runningMeanFast (List.replicate 100 (0 : ℚ))
          ((List.replicate 100 (0 : ℚ)).length / 100)).getD i 0 =
         (convTrunc (List.replicate 100 (0 : ℚ))
            ((List.replicate 100 (0 : ℚ)).length / 100)).getD
           ((List.replicate 100 (0 : ℚ)).length -
            (List.replicate 100 (0 : ℚ)).length / 100) 0)) :=
  ⟨by simp, by simp,
    runningMeanFast_clamp (List.replicate 100 (0 : ℚ)) (by simp) (by simp)⟩

/-! ### C6: heading_filt persistence -/

/-- C6: the claim (and the source's own comment "save this filtered version to
file") says the filtered bearing is persisted under `heading_filt`; but the
module imports only `loadmat` from `scipy.io` (line 59), so the `savemat` call
on line 279 raises `NameError` whenever the denoiser branch is triggered, and
nothing is persisted. -/
theorem persistHeadingFilt_error (meta : MetaStore) (bearing : List ℚ) :
    savematImported = false ∧
    persistHeadingFilt meta bearing =
      Except.error "NameError: savemat is not defined" := by
  have h : savematImported = false := by decide
  refine ⟨h, ?_⟩
  unfold persistHeadingFilt
  rw [h]
  simp

/-! ### C5: heading denoiser -/

theorem varQ_nil : varQ [] = 0 := by
  simp [varQ, meanQ]

theorem markMinority_length (bearing : List ℚ) (labels : List Bool)
    (hlen : labels.length = bearing.length) :
    (markMinority bearing labels).length = bearing.length := by
  simp [markMinority, hlen]

theorem fillNans_length (b : List (Option ℚ)) : (fillNans b).length = b.length := by
  simp [fillNans]

theorem markMinority_getElem (bearing : List ℚ) (labels : List Bool)
    (hlen : labels.length = bearing.length) (i : ℕ) (hi : i < bearing.length) :
    (markMinority bearing labels).get
        ⟨i, by rw [markMinority_length bearing labels hlen]; exact hi⟩ =
      if labels.get ⟨i, by rw [hlen]; exact hi⟩ = markedLabel labels then none
      else some (bearing.get ⟨i, hi⟩) := by
  simp [markMinority, List.getElem_zip]

theorem fillNans_getElem (b : List (Option ℚ)) (i : ℕ) (hi : i < b.length) :
    (fillNans b).get ⟨i, by rw [fillNans_length]; exact hi⟩ =
      match b.get ⟨i, hi⟩ with
      | some q => some q
      | none => interpAt (knots b) i := by
  simp only [fillNans, List.get_eq_getElem, List.getElem_map, List.getElem_enum]

theorem interpAt_isSome (ks : List (ℕ × ℚ)) (hne : ks ≠ []) (i : ℕ) :
    (interpAt ks i).isSome = true := by
  cases ks with
  | nil => exact absurd rfl hne
  | cons k rest =>
    obtain ⟨x0, v0⟩ := k
    unfold interpAt
    by_cases h : i ≤ x0 <;> simp [h]

theorem knots_ne_nil (b : List (Option ℚ)) (i : ℕ) (hi : i < b.length) (q : ℚ)
    (hq : b.get ⟨i, hi⟩ = some q) : knots b ≠ [] := by
  intro hnil
  unfold knots at hnil
  rw [List.filterMap_eq_nil_iff] at hnil
  have hmem : (i, b.get ⟨i, hi⟩) ∈ b.enum := by
    have hb : i < b.enum.length := by rw [List.enum_length]; exact hi
    have h2 := List.getElem_enum b i hb
    rw [List.get_eq_getElem, ← h2]
    exact List.getElem_mem hb
  have := hnil _ hmem
  rw [hq] at this
  simp at this

/-- When the denoiser is triggered, at least one sample survives the marking,
so the interpolation has at least one knot. -/
theorem knots_markMinority_ne_nil (bearing : List ℚ) (labels : List Bool)
    (hlen : labels.length = bearing.length) (htrig : varQ bearing > 180 ^ 2) :
    knots (markMinority bearing labels) ≠ [] := by
  have hbne : bearing ≠ [] := by
    intro hb
    rw [hb, varQ_nil] at htrig
    norm_num at htrig
  have hlpos : 0 < labels.length := by
    rw [hlen]
    exact List.length_pos.mpr hbne
  have hpart : labels.length =
      (labels.filter (fun l => l)).length + (labels.filter (fun l => !l)).length := by
    simpa using List.length_eq_length_filter_add (l := labels) (fun l => l)
  have hsurv : ∃ l ∈ labels, l ≠ markedLabel labels := by
    unfold markedLabel
    by_cases hc : (labels.filter (fun l => !l)).length > (labels.filter (fun l => l)).length
    · have h0 : 0 < (labels.filter (fun l => !l)).length := by omega
      obtain ⟨l, hlm⟩ := List.exists_mem_of_ne_nil _ (List.length_pos.mp h0)
      obtain ⟨hmem, hprop⟩ := List.mem_filter.mp hlm
      refine ⟨l, hmem, ?_⟩
      simp only [hc, decide_eq_true_eq, decide_True]
      simp only [Bool.not_eq_true'] at hprop
      rw [hprop]
      exact Bool.false_ne_true
    · have h1 : 0 < (labels.filter (fun l => l)).length := by omega
      obtain ⟨l, hlm⟩ := List.exists_mem_of_ne_nil _ (List.length_pos.mp h1)
      obtain ⟨hmem, hprop⟩ := List.mem_filter.mp hlm
      refine ⟨l, hmem, ?_⟩
      simp only [hc, decide_False]
      rw [hprop]
      simp
  obtain ⟨l, hmem, hne⟩ := hsurv
  obtain ⟨j, hj, hjl⟩ := List.mem_iff_getElem.mp hmem
  have hjb : j < bearing.length := by omega
  have hval := markMinority_getElem bearing labels hlen j hjb
  rw [if_neg (by rw [List.get_eq_getElem]; rw [hjl]; exact hne)] at hval
  exact knots_ne_nil _ j
    (by rw [markMinority_length bearing labels hlen]; exact hjb) _ hval

/-- C5 amended: whenever the denoiser is triggered (`var > 180²`) it marks
exactly the cluster the code selects (cluster 1 when cluster 0 is strictly
larger, else cluster 0 — the minority cluster whenever the sizes differ),
fills the marked samples by linear interpolation over the index axis, keeps
every surviving sample unchanged, and the output contains no NaN. The
standard deviation, however, is *not* always reduced
(`headingDenoise_std_counterexample`). -/
theorem headingDenoise_spec (bearing : List ℚ) (labels : List Bool)
    (hlen : labels.length = bearing.length) (htrig : varQ bearing > 180 ^ 2) :
    (headingDenoise bearing labels).length = bearing.length ∧
    (headingDenoise bearing labels).all Option.isSome = true ∧
    (∀ i (hi : i < bearing.length),
      ((markMinority bearing labels).get
          ⟨i, by rw [markMinority_length bearing labels hlen]; exact hi⟩ = none ↔
        labels.get ⟨i, by rw [hlen]; exact hi⟩ = markedLabel labels)) ∧
    (∀ i (hi : i < bearing.length),
      labels.get ⟨i, by rw [hlen]; exact hi⟩ ≠ markedLabel labels →
      (headingDenoise bearing labels).get
          ⟨i, by
            rw [show (headingDenoise bearing labels).length = bearing.length from by
              unfold headingDenoise
              rw [if_pos htrig, fillNans_length, markMinority_length bearing labels hlen]]
            exact hi⟩ =
        some (bearing.get ⟨i, hi⟩)) := by
  have hd : headingDenoise bearing labels = fillNans (markMinority bearing labels) := by
    unfold headingDenoise
    rw [if_pos htrig]
  have hml : (markMinority bearing labels).length = bearing.length :=
    markMinority_length bearing labels hlen
  have hknots : knots (markMinority bearing labels) ≠ [] :=
    knots_markMinority_ne_nil bearing labels hlen htrig
  refine ⟨by rw [hd, fillNans_length, hml], ?_, ?_, ?_⟩
  · rw [hd, List.all_eq_true]
    intro x hx
    obtain ⟨i, hi, hix⟩ := List.mem_iff_getElem.mp hx
    have hib : i < (markMinority bearing labels).length := by
      rw [← fillNans_length]
      exact hi
    have hfe := fillNans_getElem (markMinority bearing labels) i hib
    rw [List.get_eq_getElem] at hfe
    rw [← hix, hfe]
    cases hcase : (markMinority bearing labels).get ⟨i, hib⟩ with
    | some q => simp
    | none => simpa using interpAt_isSome _ hknots i
  · intro i hi
    have hme := markMinority_getElem bearing labels hlen i hi
    rw [hme]
    by_cases hl : labels.get ⟨i, by rw [hlen]; exact hi⟩ = markedLabel labels
    · simp [hl]
    · simp [hl]
  · intro i hi hl
    have hib : i < (markMinority bearing labels).length := by rw [hml]; exact hi
    have hme := markMinority_getElem bearing labels hlen i hi
    rw [if_neg hl] at hme
    have hfe := fillNans_getElem (markMinority bearing labels) i hib
    rw [hme] at hfe
    simp only [List.get_eq_getElem] at hfe ⊢
    simp only [hd]
    exact hfe

/-- Witness for `headingDenoise_spec` on the bearing `[0, 700, 200, 200, 200]`
with clustering `{0} / {700, 200, 200, 200}`. -/
theorem headingDenoise_spec_witness :
    ([false, true, true, true, true].length = [(0 : ℚ), 700, 200, 200, 200].length) ∧
    (varQ [(0 : ℚ), 700, 200, 200, 200] > 180 ^ 2) ∧
    ((headingDenoise [(0 : ℚ), 700, 200, 200, 200] [false, true, true, true, true]).length =
      [(0 : ℚ), 700, 200, 200, 200].length ∧
     (headingDenoise [(0 : ℚ), 700, 200, 200, 200]
        [false, true, true, true, true]).all Option.isSome = true) := by
  have hm1 : meanQ [(0 : ℚ), 700, 200, 200, 200] = 260 := by norm_num [meanQ]
  have htrig : varQ [(0 : ℚ), 700, 200, 200, 200] > 180 ^ 2 := by
    unfold varQ
    simp only [hm1]
    norm_num [meanQ]
  have hs := headingDenoise_spec [(0 : ℚ), 700, 200, 200, 200]
    [false, true, true, true, true] (by simp) htrig
  exact ⟨by simp, htrig, hs.1, hs.2.1⟩

/-- C5 counterexample: on the bearing `[0, 700, 200, 200, 200]`
(`std ≈ 233 > 180`, so the denoiser triggers) the clustering
`{0} / {700, 200, 200, 200}` is a strict fixed point of 2-means (centroids
`0` and `325`, every point strictly nearer its own centroid). The minority
sample `0` is marked and interpolation clamps it to the first survivor `700`,
giving `[700, 700, 200, 200, 200]` — whose variance `60000` **exceeds** the
input's `54400`, refuting "std(bearing) after filtering is lower than
before". -/
theorem headingDenoise_std_counterexample :
    kmeansFixedLabeling [(0 : ℚ), 700, 200, 200, 200] [false, true, true, true, true] = true ∧
    varQ [(0 : ℚ), 700, 200, 200, 200] > 180 ^ 2 ∧
    headingDenoise [(0 : ℚ), 700, 200, 200, 200] [false, true, true, true, true] =
      [some 700, some 700, some 200, some 200, some 200] ∧
    varQ [(700 : ℚ), 700, 200, 200, 200] > varQ [(0 : ℚ), 700, 200, 200, 200] := by
  have hm1 : meanQ [(0 : ℚ), 700, 200, 200, 200] = 260 := by norm_num [meanQ]
  have hv1 : varQ [(0 : ℚ), 700, 200, 200, 200] = 54400 := by
    unfold varQ
    simp only [hm1]
    norm_num [meanQ]
  have hm2 : meanQ [(700 : ℚ), 700, 200, 200, 200] = 400 := by norm_num [meanQ]
  have hv2 : varQ [(700 : ℚ), 700, 200, 200, 200] = 60000 := by
    unfold varQ
    simp only [hm2]
    norm_num [meanQ]
  have htrig : varQ [(0 : ℚ), 700, 200, 200, 200] > 180 ^ 2 := by
    rw [hv1]
    norm_num
  have hmark : markMinority [(0 : ℚ), 700, 200, 200, 200] [false, true, true, true, true] =
      [none, some 700, some 200, some 200, some 200] := rfl
  have hfill : fillNans [none, some (700 : ℚ), some 200, some 200, some 200] =
      [some 700, some 700, some 200, some 200, some 200] := rfl
  have hk : kmeansFixedLabeling [(0 : ℚ), 700, 200, 200, 200]
      [false, true, true, true, true] = true := by
    unfold kmeansFixedLabeling clusterVals
    norm_num [meanQ]
  refine ⟨hk, htrig, ?_, ?_⟩
  · unfold headingDenoise
    rw [if_pos htrig, hmark, hfill]
  · rw [hv1, hv2]
    norm_num

end PyHum
